import Mathlib

/-!
Verification of the Synaptron inference-engine core against its specification.

The development shallowly embeds the three core components of the source
(`batch.rs`, `cahce.rs`, `graph.rs`):

* `BatchProcessor` : `process` / `process_batch`, with the per-item async
  transform modelled as a function into `Option (Except SynaptronError Bytes)`
  where `none` means the item's future does not complete before the chunk
  timeout elapses (in the sequential path, where there is no timeout, `none`
  therefore makes the whole call diverge, modelled by an outer `Option`).
* `ModelCache` : `get` / `put` / `evict_lru`, with the `HashMap` embedded as an
  association list.  `SystemTime::now()` is passed in explicitly as a `Nat`
  number of seconds; the source's `u64` subtraction `now - timestamp` is
  embedded as release-mode wrapping subtraction `u64Sub`.
* `ModelGraph` : `add_node` / `remove_node` / `update_execution_order` /
  `topological_sort` / `execute`.  The recursive depth-first sort is embedded
  with an explicit fuel argument (`nodes.length + 1` at every top-level call,
  which bounds the nesting depth, since a node is marked visited before its
  inputs are visited); fuel exhaustion is modelled as `none` (divergence).
  `HashMap` iteration order is not guaranteed, so theorems that depend on it
  quantify over permutations of the entry list.

Rust `panic!` / `unwrap` failure and non-termination are both modelled as
`none`; typed errors are the `Except` layer.
-/

namespace Synaptron

/-- Opaque byte payloads (`Vec<u8>`), embedded as lists of naturals. -/
abbrev Bytes := List Nat

/-- `error.rs`: the error enum (the `#[from]` wrapper variants for external
library errors are collapsed into their message strings). -/
inductive SynaptronError where
  | ModelLoad (msg : String)
  | DeviceSelection (msg : String)
  | Inference (msg : String)
  | BackendInit (msg : String)
  | Tokenization (msg : String)
  | GraphExecution (msg : String)
  | Optimization (msg : String)
  | Cache (msg : String)
  | Batch (msg : String)
  | Multimodal (msg : String)
  | Other (msg : String)
deriving DecidableEq

/-! ### Association-list embedding of `std::collections::HashMap`

`lookupFirst` / `updateFirst` / `removeFirst` operate on the first entry with
the given key; reachable states have distinct keys, so this matches the map
semantics.  `insertAssoc` models `HashMap::insert` (overwrite if present). -/

/-- `HashMap::get`, first matching entry. -/
def lookupFirst {α : Type} : List (String × α) → String → Option α
  | [], _ => none
  | (k, v) :: rest, key => if k = key then some v else lookupFirst rest key

/-- `HashMap::contains_key`. -/
def containsKey {α : Type} (l : List (String × α)) (key : String) : Bool :=
  (lookupFirst l key).isSome

/-- In-place overwrite of the first entry with the given key (`get_mut`,
or `insert` on a present key). -/
def updateFirst {α : Type} : List (String × α) → String → α → List (String × α)
  | [], _, _ => []
  | (k, v) :: rest, key, newV =>
      if k = key then (k, newV) :: rest else (k, v) :: updateFirst rest key newV

/-- `HashMap::remove`. -/
def removeFirst {α : Type} : List (String × α) → String → List (String × α)
  | [], _ => []
  | (k, v) :: rest, key => if k = key then rest else (k, v) :: removeFirst rest key

/-- `HashMap::insert`: overwrite when the key is present, otherwise add. -/
def insertAssoc {α : Type} (l : List (String × α)) (key : String) (v : α) :
    List (String × α) :=
  if containsKey l key then updateFirst l key v else l ++ [(key, v)]

/-! ### `config.rs` (the parts the core consumes) -/

/-- `CacheConfig`.  `usize` / `u64` fields are embedded as `Nat`; note that the
source performs no validation, so `max_size = 0` is a representable
configuration. -/
structure CacheConfig where
  enabled : Bool
  max_size : Nat
  ttl_seconds : Nat
deriving DecidableEq

/-- `BatchConfig`. -/
structure BatchConfig where
  enabled : Bool
  max_batch_size : Nat
  timeout_ms : Nat
deriving DecidableEq

/-! ### `model.rs` (the data carried through cache and graph) -/

/-- `ModelInputType`. -/
inductive ModelInputType where
  | Text
  | Image
  | Audio
deriving DecidableEq

/-- `ModelMetadata`. -/
structure ModelMetadata where
  input_shape : List Nat
  output_shape : List Nat
  data_type : String
  size : Nat
  architecture : String
  version : String
  required_libs : List String
deriving DecidableEq

/-- `Model`.  Cloning is value copying in the embedding. -/
structure Model where
  name : String
  path : String
  format : String
  input_type : ModelInputType
  metadata : ModelMetadata
  data : Bytes
deriving DecidableEq

/-! ### `batch.rs`: `BatchProcessor`

The per-item async transform `processor` is embedded as
`op : Bytes → Option (Except SynaptronError Bytes)`; `op x = none` means the
future for `x` does not complete before the configured timeout elapses. -/

/-- The `for result in results { processed_results.push(result?); }` loop of
`process_batch`: first error wins, otherwise all values in order. -/
def collectExcept : List (Except SynaptronError Bytes) →
    Except SynaptronError (List Bytes)
  | [] => .ok []
  | .error e :: _ => .error e
  | .ok v :: rest =>
      match collectExcept rest with
      | .error e => .error e
      | .ok vs => .ok (v :: vs)

/-- `timeout(_, join_all(futures))`: the joined future completes before the
timeout exactly when every constituent future does. -/
def seqOpt : List (Option (Except SynaptronError Bytes)) →
    Option (List (Except SynaptronError Bytes))
  | [] => some []
  | none :: _ => none
  | some r :: rest => (seqOpt rest).map (r :: ·)

/-- `BatchProcessor::process_batch`: run the whole chunk under one shared
timeout, then collect the per-item results, propagating the first failure. -/
def processBatch (op : Bytes → Option (Except SynaptronError Bytes))
    (batch : List Bytes) : Except SynaptronError (List Bytes) :=
  match seqOpt (batch.map op) with
  | none => .error (.Batch "Batch processing timed out")
  | some results => collectExcept results

/-- `slice::chunks` with an explicit fuel argument (`l.length` always
suffices): contiguous chunks, each of size at most `n` (for `n > 0`). -/
def rustChunksAux {α : Type} (n : Nat) : Nat → List α → List (List α)
  | 0, _ => []
  | _ + 1, [] => []
  | fuel + 1, x :: xs =>
      (x :: xs.take (n - 1)) :: rustChunksAux n fuel (xs.drop (n - 1))

/-- `inputs.chunks(max_batch_size)`. -/
def rustChunks {α : Type} (n : Nat) (l : List α) : List (List α) :=
  rustChunksAux n l.length l

/-- The chunk loop of `process`: `results.extend(process_batch(chunk)?)`. -/
def goChunks (op : Bytes → Option (Except SynaptronError Bytes)) :
    List (List Bytes) → Except SynaptronError (List Bytes)
  | [] => .ok []
  | c :: cs =>
      match processBatch op c with
      | .error e => .error e
      | .ok rs =>
          match goChunks op cs with
          | .error e => .error e
          | .ok rest => .ok (rs ++ rest)

/-- The sequential branch of `process`: `processor(input).await?` one input at
a time.  There is no timeout here, so a never-completing item makes the whole
call diverge (`none`). -/
def processSeq (op : Bytes → Option (Except SynaptronError Bytes)) :
    List Bytes → Option (Except SynaptronError (List Bytes))
  | [] => some (.ok [])
  | x :: xs =>
      match op x with
      | none => none
      | some (.error e) => some (.error e)
      | some (.ok v) =>
          match processSeq op xs with
          | none => none
          | some (.error e) => some (.error e)
          | some (.ok vs) => some (.ok (v :: vs))

/-- `BatchProcessor::process`.  `chunks(0)` panics in Rust, modelled as `none`
when batching is taken with `max_batch_size = 0`. -/
def process (cfg : BatchConfig) (op : Bytes → Option (Except SynaptronError Bytes))
    (inputs : List Bytes) : Option (Except SynaptronError (List Bytes)) :=
  if cfg.enabled = false ∨ inputs.length < 2 then
    processSeq op inputs
  else if cfg.max_batch_size = 0 then
    none
  else
    some (goChunks op (rustChunks cfg.max_batch_size inputs))

/-- Follows the specification's words for the sequential contract: the
strictly sequential application of the operator to each input in input order,
i.e. a monadic map in the combined divergence-and-error monad.  Compared with
the source-derived `process` in the claim about the sequential path. -/
def sequentialApply (op : Bytes → Option (Except SynaptronError Bytes))
    (inputs : List Bytes) : Option (Except SynaptronError (List Bytes)) :=
  ExceptT.run
    (inputs.mapM (fun x => (ExceptT.mk (op x) : ExceptT SynaptronError Option Bytes)))

/-! ### `cahce.rs`: `ModelCache` -/

/-- `CachedModel`. -/
structure CachedModel where
  model : Model
  timestamp : Nat
  access_count : Nat
deriving DecidableEq

/-- The cache map. -/
abbrev CacheState := List (String × CachedModel)

/-- Release-mode `u64` wrapping subtraction (the source subtracts two `u64`
timestamps without a check); equals `a - b` whenever `b ≤ a < 2 ^ 64`. -/
def u64Sub (a b : Nat) : Nat := (a + 2 ^ 64 - b) % 2 ^ 64

/-- `ModelCache::get`.  `now` is `SystemTime::now()` in seconds. -/
def cacheGet (cfg : CacheConfig) (now : Nat) (model_path : String)
    (cache : CacheState) : Option Model × CacheState :=
  if cfg.enabled = false then (none, cache)
  else
    match lookupFirst cache model_path with
    | some cached =>
        if u64Sub now cached.timestamp < cfg.ttl_seconds then
          (some cached.model,
           updateFirst cache model_path
             { cached with access_count := cached.access_count + 1 })
        else
          (none, removeFirst cache model_path)
    | none => (none, cache)

/-- `Iterator::min_by_key` on `(_, entry) => entry.access_count` over the
map's entries: the first entry (in iteration order) with minimal counter. -/
def minByAccess : CacheState → Option (String × CachedModel)
  | [] => none
  | p :: rest =>
      match minByAccess rest with
      | none => some p
      | some q => if q.2.access_count < p.2.access_count then some q else some p

/-- `ModelCache::evict_lru`: remove the entry found by `min_by_key` (a no-op
on an empty map). -/
def evictLru (cache : CacheState) : CacheState :=
  match minByAccess cache with
  | none => cache
  | some p => removeFirst cache p.1

/-- `ModelCache::put`.  The source always returns `Ok(())`; the `Except`
layer is kept to mirror the signature. -/
def cachePut (cfg : CacheConfig) (now : Nat) (model : Model)
    (cache : CacheState) : Except SynaptronError Unit × CacheState :=
  if cfg.enabled = false then (.ok (), cache)
  else
    let cache1 := if cfg.max_size ≤ cache.length then evictLru cache else cache
    (.ok (),
     insertAssoc cache1 model.path
       { model := model, timestamp := now, access_count := 1 })

/-- A sequence of `put` calls, each with its own clock reading. -/
def runPuts (cfg : CacheConfig) : List (Nat × Model) → CacheState → CacheState
  | [], cache => cache
  | (now, m) :: rest, cache => runPuts cfg rest (cachePut cfg now m cache).2

/-! ### `graph.rs`: `ModelGraph` -/

/-- `GraphNode`. -/
structure GraphNode where
  id : String
  model_name : String
  inputs : List String
  outputs : List String
deriving DecidableEq

/-- The node map of a graph. -/
abbrev NodeMap := List (String × GraphNode)

/-- `ModelGraph`. -/
structure ModelGraph where
  nodes : NodeMap
  execution_order : List String
deriving DecidableEq

/-- `ModelGraph::new`. -/
def ModelGraph.new : ModelGraph := ⟨[], []⟩

/-- The `for input_id in &node.inputs` loop inside `topological_sort`:
`ts` is the recursive visit (the sort itself, at one less fuel). -/
def topoVisitInputs (nodes : NodeMap)
    (ts : String → List String → List String →
      Option (Except SynaptronError (List String × List String))) :
    List String → List String → List String →
    Option (Except SynaptronError (List String × List String))
  | [], visited, order => some (.ok (visited, order))
  | input_id :: rest, visited, order =>
      if containsKey nodes input_id ∧ input_id ∉ visited then
        match ts input_id visited order with
        | none => none
        | some (.error e) => some (.error e)
        | some (.ok (v2, o2)) => topoVisitInputs nodes ts rest v2 o2
      else
        topoVisitInputs nodes ts rest visited order

/-- `ModelGraph::topological_sort`: mark the node visited, recursively visit
its declared inputs that exist in the map and are unvisited, then append the
node.  `fuel` bounds the nesting depth (`none` = fuel exhausted / would not
return); the source's `Result` layer never actually errors but is kept. -/
def topoSort (nodes : NodeMap) : Nat → String → List String → List String →
    Option (Except SynaptronError (List String × List String))
  | 0, _, _, _ => none
  | fuel + 1, node_id, visited, order =>
      let visited1 := node_id :: visited
      match lookupFirst nodes node_id with
      | some node =>
          match topoVisitInputs nodes (fun id v o => topoSort nodes fuel id v o)
              node.inputs visited1 order with
          | none => none
          | some (.error e) => some (.error e)
          | some (.ok (v2, o2)) => some (.ok (v2, o2 ++ [node_id]))
      | none => some (.ok (visited1, order ++ [node_id]))

/-- The `for (node_id, _) in &self.nodes` loop of `update_execution_order`;
the first argument is the full map, the second the remaining iteration. -/
def orderLoop (nodes : NodeMap) : List (String × GraphNode) → List String →
    List String → Option (Except SynaptronError (List String × List String))
  | [], visited, order => some (.ok (visited, order))
  | (node_id, _) :: rest, visited, order =>
      if node_id ∈ visited then orderLoop nodes rest visited order
      else
        match topoSort nodes (nodes.length + 1) node_id visited order with
        | none => none
        | some (.error e) => some (.error e)
        | some (.ok (v2, o2)) => orderLoop nodes rest v2 o2

/-- `ModelGraph::update_execution_order`, returning the recomputed order. -/
def updateExecutionOrder (nodes : NodeMap) :
    Option (Except SynaptronError (List String)) :=
  match orderLoop nodes nodes [] [] with
  | none => none
  | some (.error e) => some (.error e)
  | some (.ok (_, order)) => some (.ok order)

/-- `ModelGraph::add_node`: insert (overwriting by id), then recompute. -/
def ModelGraph.addNode (g : ModelGraph) (node : GraphNode) :
    Option (Except SynaptronError ModelGraph) :=
  let nodes := insertAssoc g.nodes node.id node
  match updateExecutionOrder nodes with
  | none => none
  | some (.error e) => some (.error e)
  | some (.ok order) => some (.ok ⟨nodes, order⟩)

/-- `ModelGraph::remove_node`: remove by id, then recompute. -/
def ModelGraph.removeNode (g : ModelGraph) (node_id : String) :
    Option (Except SynaptronError ModelGraph) :=
  let nodes := removeFirst g.nodes node_id
  match updateExecutionOrder nodes with
  | none => none
  | some (.error e) => some (.error e)
  | some (.ok order) => some (.ok ⟨nodes, order⟩)

/-- Add a sequence of nodes with `add_node`, propagating failures. -/
def addAll : ModelGraph → List GraphNode →
    Option (Except SynaptronError ModelGraph)
  | g, [] => some (.ok g)
  | g, n :: rest =>
      match g.addNode n with
      | none => none
      | some (.error e) => some (.error e)
      | some (.ok g2) => addAll g2 rest

/-- The input-gathering step of `ModelGraph::execute`: the initial input when
the node declares no inputs, otherwise the already-produced intermediate
results of the declared input ids.  `none` models the
`outputs.get("input").unwrap()` panic (unreachable from the seeded map). -/
def gatherInputs (node : GraphNode) (outputs : List (String × Bytes)) :
    Option (List Bytes) :=
  if node.inputs.isEmpty then
    match lookupFirst outputs "input" with
    | some v => some [v]
    | none => none
  else
    some (node.inputs.filterMap (fun i => lookupFirst outputs i))

/-- The `for node_id in &self.execution_order` loop of `ModelGraph::execute`
(continued): consume the first gathered input, look up the node's model,
pass the input through as the node's output, and record it. -/
def executeLoop (nodes : NodeMap) (models : List (String × Model)) :
    List String → List (String × Bytes) →
    Option (Except SynaptronError (List (String × Bytes)))
  | [], outputs => some (.ok outputs)
  | node_id :: rest, outputs =>
      match lookupFirst nodes node_id with
      | none => executeLoop nodes models rest outputs
      | some node =>
          match gatherInputs node outputs with
          | none => none
          | some node_inputs =>
              match node_inputs.head? with
              | none =>
                  some (.error (.GraphExecution
                    ("No input available for node: " ++ node_id)))
              | some input =>
                  match lookupFirst models node.model_name with
                  | none =>
                      some (.error (.GraphExecution
                        ("Model not found: " ++ node.model_name)))
                  | some _ =>
                      executeLoop nodes models rest
                        (insertAssoc outputs node_id input)

/-- `ModelGraph::execute`. -/
def ModelGraph.execute (g : ModelGraph) (models : List (String × Model))
    (initial_input : Bytes) : Option (Except SynaptronError Bytes) :=
  match executeLoop g.nodes models g.execution_order [("input", initial_input)] with
  | none => none
  | some (.error e) => some (.error e)
  | some (.ok outputs) =>
      match g.execution_order.getLast? with
      | some last_node_id =>
          match lookupFirst outputs last_node_id with
          | some out => some (.ok out)
          | none => some (.error (.GraphExecution "No output from graph execution"))
      | none =>
          match lookupFirst outputs "input" with
          | some v => some (.ok v)
          | none => none

/-! ### Concrete sample values used by witnesses and counterexamples -/

/-- Sample metadata. -/
def sampleMetadata : ModelMetadata := ⟨[], [], "f32", 0, "mlp", "1", []⟩

/-- A sample model with the given name and source path. -/
def sampleModel (nm pth : String) : Model := ⟨nm, pth, "onnx", .Text, sampleMetadata, []⟩

/-- Chain node A (no declared inputs). -/
def chainNodeA : GraphNode := ⟨"A", "mA", [], []⟩

/-- Chain node B (declares A as input). -/
def chainNodeB : GraphNode := ⟨"B", "mB", ["A"], []⟩

/-- Chain node C (declares B as input). -/
def chainNodeC : GraphNode := ⟨"C", "mC", ["B"], []⟩

/-- Cycle node A (declares B as input). -/
def cycleNodeA : GraphNode := ⟨"A", "mA", ["B"], []⟩

/-- Cycle node B (declares A as input). -/
def cycleNodeB : GraphNode := ⟨"B", "mB", ["A"], []⟩

/-- A one-node graph used to witness graph execution. -/
def witnessGraph : ModelGraph := ⟨[("n", ⟨"n", "m", [], []⟩)], ["n"]⟩

/-! ### Association-list lemmas -/

theorem lookupFirst_mem {α : Type} {l : List (String × α)} {k : String} {v : α}
    (h : lookupFirst l k = some v) : (k, v) ∈ l := by
  induction l with
  | nil => simp [lookupFirst] at h
  | cons p rest ih =>
    obtain ⟨k1, v1⟩ := p
    simp only [lookupFirst] at h
    by_cases hk : k1 = k
    · rw [if_pos hk] at h
      cases h
      subst hk
      exact List.mem_cons_self _ _
    · rw [if_neg hk] at h
      exact List.mem_cons_of_mem _ (ih h)

theorem mem_updateFirst {α : Type} {l : List (String × α)} {k : String} {nv : α}
    {p : String × α} (h : p ∈ updateFirst l k nv) : p ∈ l ∨ p = (k, nv) := by
  induction l with
  | nil => simp [updateFirst] at h
  | cons q rest ih =>
    obtain ⟨k1, v1⟩ := q
    simp only [updateFirst] at h
    by_cases hk : k1 = k
    · rw [if_pos hk] at h
      rcases List.mem_cons.mp h with h1 | h1
      · right; rw [h1, hk]
      · left; exact List.mem_cons_of_mem _ h1
    · rw [if_neg hk] at h
      rcases List.mem_cons.mp h with h1 | h1
      · left; rw [h1]; exact List.mem_cons_self _ _
      · rcases ih h1 with h2 | h2
        · left; exact List.mem_cons_of_mem _ h2
        · right; exact h2

theorem mem_insertAssoc {α : Type} {l : List (String × α)} {k : String} {v : α}
    {p : String × α} (h : p ∈ insertAssoc l k v) : p ∈ l ∨ p = (k, v) := by
  unfold insertAssoc at h
  by_cases hc : containsKey l k
  · rw [if_pos hc] at h
    exact mem_updateFirst h
  · rw [if_neg hc] at h
    rcases List.mem_append.mp h with h1 | h1
    · left; exact h1
    · right; simpa using h1

/-! ### Claim C1: cycle handling in the execution-order computation -/

/-- Claim C1: the claim states that for a graph with a dependency cycle
(A declaring B as input and B declaring A as input) the execution-order
computation fails with a graph error.  The code instead terminates (the
single visited flag is set before recursing, so there is no infinite
recursion) and returns a non-error order containing both nodes, for either
map iteration order; that order is not a valid topological order of the
cycle.  This theorem evaluates `add_node`'s order computation at the failing
input and exhibits the divergence from the claim. -/
theorem c1_cycle_add_node_returns_ok_order :
    addAll ModelGraph.new [cycleNodeA, cycleNodeB] =
      some (.ok ⟨[("A", cycleNodeA), ("B", cycleNodeB)], ["B", "A"]⟩) ∧
    addAll ModelGraph.new [cycleNodeB, cycleNodeA] =
      some (.ok ⟨[("B", cycleNodeB), ("A", cycleNodeA)], ["A", "B"]⟩) ∧
    updateExecutionOrder [("A", cycleNodeA), ("B", cycleNodeB)] =
      some (.ok ["B", "A"]) ∧
    updateExecutionOrder [("B", cycleNodeB), ("A", cycleNodeA)] =
      some (.ok ["A", "B"]) := by
  refine ⟨rfl, rfl, rfl, rfl⟩

/-! ### Claim C9: three-node chain orders as [A, B, C] -/

/-- Claim C9: for the acyclic chain (C declares B as input, B declares A as
input), adding the three nodes in any insertion order yields the execution
order exactly ["A", "B", "C"].  The hypothesis quantifies over every
permutation of the insertion sequence, which (with the association-list
embedding) also ranges over every possible map iteration order. -/
theorem c9_chain_execution_order (ns : List GraphNode)
    (h : ns.Perm [chainNodeA, chainNodeB, chainNodeC]) :
    Option.map (Except.map ModelGraph.execution_order) (addAll ModelGraph.new ns) =
      some (.ok ["A", "B", "C"]) := by
  have hlen : ns.length = 3 := by simpa using h.length_eq
  rcases ns with _ | ⟨x, _ | ⟨y, _ | ⟨z, _ | ⟨w, t⟩⟩⟩⟩
  · simp at hlen
  · simp at hlen
  · simp at hlen
  case cons.cons.cons.cons =>
    simp only [List.length_cons] at hlen
    omega
  case cons.cons.cons.nil =>
    have hx : x ∈ [chainNodeA, chainNodeB, chainNodeC] := h.mem_iff.mp (by simp)
    have hy : y ∈ [chainNodeA, chainNodeB, chainNodeC] := h.mem_iff.mp (by simp)
    have hz : z ∈ [chainNodeA, chainNodeB, chainNodeC] := h.mem_iff.mp (by simp)
    simp only [List.mem_cons, List.not_mem_nil, or_false] at hx hy hz
    rcases hx with rfl | rfl | rfl <;> rcases hy with rfl | rfl | rfl <;>
      rcases hz with rfl | rfl | rfl <;>
      first
        | exact absurd h (by decide)
        | rfl

/-- Witness for C9 at a concrete insertion order. -/
theorem c9_witness :
    Option.map (Except.map ModelGraph.execution_order)
        (addAll ModelGraph.new [chainNodeC, chainNodeA, chainNodeB]) =
      some (.ok ["A", "B", "C"]) :=
  c9_chain_execution_order [chainNodeC, chainNodeA, chainNodeB] (by decide)

/-! ### Claim C10: executing an empty graph returns the initial input -/

/-- Claim C10: for every model map and initial input, executing a graph with
no nodes (whose cached execution order is, as maintained by
`update_execution_order`, the computed order of its empty node map) returns
Ok of the initial input unchanged. -/
theorem c10_empty_graph_execute (g : ModelGraph)
    (h1 : g.nodes = [])
    (h2 : updateExecutionOrder g.nodes = some (.ok g.execution_order))
    (models : List (String × Model)) (input : Bytes) :
    g.execute models input = some (.ok input) := by
  obtain ⟨ns, ord⟩ := g
  simp only at h1
  subst h1
  have hord : ord = [] := by
    have h3 : (some (.ok ([] : List String)) :
        Option (Except SynaptronError (List String))) = some (.ok ord) := h2
    cases h3
    rfl
  subst hord
  rfl

/-- Witness for C10 on the freshly constructed graph. -/
theorem c10_witness : ModelGraph.new.execute [] [5, 6] = some (.ok [5, 6]) :=
  c10_empty_graph_execute ModelGraph.new rfl rfl [] [5, 6]

/-! ### Claim C3: graph execution is a pass-through -/

theorem gatherInputs_mem {node : GraphNode} {outputs : List (String × Bytes)}
    {ins : List Bytes} (h : gatherInputs node outputs = some ins) :
    ∀ v ∈ ins, ∃ k, lookupFirst outputs k = some v := by
  unfold gatherInputs at h
  by_cases he : node.inputs.isEmpty
  · rw [if_pos he] at h
    cases hl : lookupFirst outputs "input" with
    | none => rw [hl] at h; cases h
    | some v0 =>
        rw [hl] at h
        cases h
        intro v hv
        rcases List.mem_singleton.mp hv with rfl
        exact ⟨"input", hl⟩
  · rw [if_neg he] at h
    cases h
    intro v hv
    rcases List.mem_filterMap.mp hv with ⟨i, _, hi⟩
    exact ⟨i, hi⟩

theorem executeLoop_values (nodes : NodeMap) (models : List (String × Model))
    (init : Bytes) :
    ∀ (ids : List String) (outputs : List (String × Bytes)),
      (∀ p ∈ outputs, p.2 = init) →
      ∀ outs, executeLoop nodes models ids outputs = some (.ok outs) →
      ∀ p ∈ outs, p.2 = init := by
  intro ids
  induction ids with
  | nil =>
      intro outputs hinv outs h p hp
      simp only [executeLoop] at h
      cases h
      exact hinv p hp
  | cons nid rest ih =>
      intro outputs hinv outs h p hp
      cases hn : lookupFirst nodes nid with
      | none =>
          simp only [executeLoop, hn] at h
          exact ih outputs hinv outs h p hp
      | some node =>
          simp only [executeLoop, hn] at h
          cases hg : gatherInputs node outputs with
          | none => simp only [hg] at h; simp at h
          | some ins =>
              simp only [hg] at h
              cases hh : ins.head? with
              | none => simp only [hh] at h; simp at h
              | some input =>
                  simp only [hh] at h
                  cases hm : lookupFirst models node.model_name with
                  | none => simp only [hm] at h; simp at h
                  | some m =>
                      simp only [hm] at h
                      have hmem : input ∈ ins := by
                        cases ins with
                        | nil => cases hh
                        | cons b t =>
                            cases hh
                            exact List.mem_cons_self _ _
                      obtain ⟨k, hk⟩ := gatherInputs_mem hg input hmem
                      have hinit : input = init := hinv _ (lookupFirst_mem hk)
                      have hinv2 : ∀ q ∈ insertAssoc outputs nid input, q.2 = init := by
                        intro q hq
                        rcases mem_insertAssoc hq with h1 | h1
                        · exact hinv q h1
                        · rw [h1]; exact hinit
                      exact ih _ hinv2 outs h p hp

/-- Claim C3: for every graph state, model map and initial input, whenever
`execute` returns Ok the returned bytes are exactly the initial input — each
node's invocation copies its selected input to its output without calling the
model, so the graph never transforms data. -/
theorem c3_execute_pass_through (g : ModelGraph) (models : List (String × Model))
    (input r : Bytes) (h : g.execute models input = some (.ok r)) : r = input := by
  cases hl : executeLoop g.nodes models g.execution_order [("input", input)] with
  | none => simp only [ModelGraph.execute, hl] at h; simp at h
  | some res =>
      cases res with
      | error e => simp only [ModelGraph.execute, hl] at h; simp at h
      | ok outputs =>
          simp only [ModelGraph.execute, hl] at h
          have hvals : ∀ p ∈ outputs, p.2 = input := by
            refine executeLoop_values g.nodes models input g.execution_order
              [("input", input)] ?_ outputs hl
            intro p hp
            rcases List.mem_singleton.mp hp with rfl
            rfl
          cases hlast : g.execution_order.getLast? with
          | some last =>
              simp only [hlast] at h
              cases ho : lookupFirst outputs last with
              | none => simp only [ho] at h; simp at h
              | some out =>
                  simp only [ho, Option.some.injEq, Except.ok.injEq] at h
                  rw [← h]
                  exact hvals _ (lookupFirst_mem ho)
          | none =>
              simp only [hlast] at h
              cases ho : lookupFirst outputs "input" with
              | none => simp only [ho] at h; simp at h
              | some v =>
                  simp only [ho, Option.some.injEq, Except.ok.injEq] at h
                  rw [← h]
                  exact hvals _ (lookupFirst_mem ho)

/-- Witness for C3: a one-node graph executed on a concrete input. -/
theorem c3_witness :
    witnessGraph.execute [("m", sampleModel "m" "pm")] [3, 1] = some (.ok [3, 1]) ∧
    ([3, 1] : Bytes) = [3, 1] :=
  ⟨rfl, c3_execute_pass_through witnessGraph [("m", sampleModel "m" "pm")] [3, 1] [3, 1] rfl⟩

/-! ### Claim C8: cache get semantics -/

theorem u64Sub_eq {a b : Nat} (hb : b ≤ a) (ha : a < 2 ^ 64) : u64Sub a b = a - b := by
  unfold u64Sub
  have h1 : a + 2 ^ 64 - b = (a - b) + 2 ^ 64 := by omega
  rw [h1, Nat.add_mod_right]
  exact Nat.mod_eq_of_lt (by omega)

/-- Claim C8: `get` returns a clone of the cached model exactly when the
cache is enabled, the key is present, and the entry's age is below
`ttl_seconds`, incrementing that entry's access counter; when the age is at
or beyond `ttl_seconds` it removes the entry and returns nothing; when the
cache is disabled it always returns nothing.  (The age hypotheses assume the
entry's timestamp does not exceed the current clock reading and that the
clock fits in a `u64`, under which the source's `u64` subtraction is the
entry's age.) -/
theorem c8_cache_get_semantics (cfg : CacheConfig) (now : Nat) (key : String)
    (cache : CacheState) :
    (cfg.enabled = false → cacheGet cfg now key cache = (none, cache)) ∧
    (cfg.enabled = true → lookupFirst cache key = none →
      cacheGet cfg now key cache = (none, cache)) ∧
    (∀ entry : CachedModel, cfg.enabled = true →
      lookupFirst cache key = some entry →
      entry.timestamp ≤ now → now < 2 ^ 64 →
      ((now - entry.timestamp < cfg.ttl_seconds →
          cacheGet cfg now key cache =
            (some entry.model,
             updateFirst cache key
               { entry with access_count := entry.access_count + 1 })) ∧
       (cfg.ttl_seconds ≤ now - entry.timestamp →
          cacheGet cfg now key cache = (none, removeFirst cache key)))) := by
  refine ⟨?_, ?_, ?_⟩
  · intro hdis
    simp [cacheGet, hdis]
  · intro hen hnone
    simp [cacheGet, hen, hnone]
  · intro entry hen hlook hts hnow
    constructor
    · intro hfresh
      simp [cacheGet, hen, hlook, u64Sub_eq hts hnow, hfresh]
    · intro hstale
      have : ¬ u64Sub now entry.timestamp < cfg.ttl_seconds := by
        rw [u64Sub_eq hts hnow]; omega
      simp [cacheGet, hen, hlook, this]

/-- A sample cache entry used by witnesses. -/
def witnessEntry : CachedModel := ⟨sampleModel "a" "pa", 1, 3⟩

/-- Witness for C8: a fresh hit bumps the counter and returns the model. -/
theorem c8_witness :
    cacheGet ⟨true, 10, 100⟩ 5 "pa" [("pa", witnessEntry)] =
      (some witnessEntry.model, [("pa", ⟨witnessEntry.model, 1, 4⟩)]) := by
  have h := ((c8_cache_get_semantics ⟨true, 10, 100⟩ 5 "pa"
      [("pa", witnessEntry)]).2.2 witnessEntry rfl rfl (by decide) (by decide)).1
    (by decide)
  exact h

/-! ### Claim C2: cache size bound and minimum-access-count eviction -/

theorem minByAccess_eq_none {l : CacheState} : minByAccess l = none ↔ l = [] := by
  cases l with
  | nil => simp [minByAccess]
  | cons p rest =>
      simp only [minByAccess]
      constructor
      · intro h
        cases h2 : minByAccess rest with
        | none => simp only [h2] at h; cases h
        | some q =>
            simp only [h2] at h
            by_cases hq : q.2.access_count < p.2.access_count
            · simp [hq] at h
            · simp [hq] at h
      · intro h; cases h

theorem minByAccess_spec {l : CacheState} (h : l ≠ []) :
    ∃ p, minByAccess l = some p ∧ p ∈ l ∧
      ∀ q ∈ l, p.2.access_count ≤ q.2.access_count := by
  induction l with
  | nil => exact absurd rfl h
  | cons x rest ih =>
      cases hr : minByAccess rest with
      | none =>
          have hrest : rest = [] := minByAccess_eq_none.mp hr
          subst hrest
          refine ⟨x, ?_, List.mem_cons_self _ _, ?_⟩
          · simp [minByAccess]
          · intro q hq
            rcases List.mem_singleton.mp hq with rfl
            exact le_refl _
      | some m =>
          have hne : rest ≠ [] := by
            intro hcon
            subst hcon
            simp [minByAccess] at hr
          obtain ⟨p, hp1, hp2, hp3⟩ := ih hne
          rw [hr] at hp1
          cases hp1
          by_cases hlt : m.2.access_count < x.2.access_count
          · refine ⟨m, ?_, List.mem_cons_of_mem _ hp2, ?_⟩
            · simp [minByAccess, hr, hlt]
            · intro q hq
              rcases List.mem_cons.mp hq with rfl | hq2
              · exact le_of_lt hlt
              · exact hp3 q hq2
          · refine ⟨x, ?_, List.mem_cons_self _ _, ?_⟩
            · simp [minByAccess, hr, hlt]
            · intro q hq
              rcases List.mem_cons.mp hq with rfl | hq2
              · exact le_refl _
              · exact le_trans (Nat.le_of_not_lt hlt) (hp3 q hq2)

theorem containsKey_of_mem {α : Type} {l : List (String × α)} {p : String × α}
    (h : p ∈ l) : containsKey l p.1 = true := by
  induction l with
  | nil => cases h
  | cons q rest ih =>
      obtain ⟨k1, v1⟩ := q
      rcases List.mem_cons.mp h with rfl | h2
      · simp [containsKey, lookupFirst]
      · simp only [containsKey, lookupFirst]
        by_cases hk : k1 = p.1
        · simp [hk]
        · simpa [hk, containsKey] using ih h2

theorem removeFirst_length {α : Type} {l : List (String × α)} {k : String}
    (h : containsKey l k = true) : (removeFirst l k).length + 1 = l.length := by
  induction l with
  | nil => simp [containsKey, lookupFirst] at h
  | cons q rest ih =>
      obtain ⟨k1, v1⟩ := q
      simp only [containsKey, lookupFirst] at h
      simp only [removeFirst]
      by_cases hk : k1 = k
      · simp [hk]
      · rw [if_neg hk]
        rw [if_neg hk] at h
        simp only [List.length_cons]
        rw [ih h]

theorem updateFirst_length {α : Type} (l : List (String × α)) (k : String) (v : α) :
    (updateFirst l k v).length = l.length := by
  induction l with
  | nil => rfl
  | cons q rest ih =>
      obtain ⟨k1, v1⟩ := q
      simp only [updateFirst]
      by_cases hk : k1 = k
      · simp [hk]
      · simp [hk, ih]

theorem insertAssoc_length {α : Type} (l : List (String × α)) (k : String) (v : α) :
    (insertAssoc l k v).length = if containsKey l k then l.length else l.length + 1 := by
  unfold insertAssoc
  by_cases hc : containsKey l k
  · simp [hc, updateFirst_length]
  · simp [hc]

theorem lookupFirst_updateFirst_self {α : Type} {l : List (String × α)}
    {k : String} (v : α) (h : containsKey l k = true) :
    lookupFirst (updateFirst l k v) k = some v := by
  induction l with
  | nil => simp [containsKey, lookupFirst] at h
  | cons q rest ih =>
      obtain ⟨k1, v1⟩ := q
      simp only [containsKey, lookupFirst] at h
      simp only [updateFirst]
      by_cases hk : k1 = k
      · simp [lookupFirst, hk]
      · rw [if_neg hk] at h
        simp only [updateFirst, if_neg hk, lookupFirst]
        exact ih h

theorem lookupFirst_append_of_none {α : Type} {l : List (String × α)}
    {k : String} (l2 : List (String × α)) (h : lookupFirst l k = none) :
    lookupFirst (l ++ l2) k = lookupFirst l2 k := by
  induction l with
  | nil => rfl
  | cons q rest ih =>
      obtain ⟨k1, v1⟩ := q
      simp only [lookupFirst] at h ⊢
      by_cases hk : k1 = k
      · rw [if_pos hk] at h; cases h
      · rw [if_neg hk] at h ⊢
        exact ih h

theorem lookupFirst_insertAssoc_self {α : Type} (l : List (String × α))
    (k : String) (v : α) : lookupFirst (insertAssoc l k v) k = some v := by
  unfold insertAssoc
  by_cases hc : containsKey l k
  · rw [if_pos hc]
    exact lookupFirst_updateFirst_self v hc
  · rw [if_neg hc]
    have hn : lookupFirst l k = none := by
      simp only [containsKey, Option.isSome] at hc
      cases h2 : lookupFirst l k with
      | none => rfl
      | some w => rw [h2] at hc; simp at hc
    rw [lookupFirst_append_of_none _ hn]
    simp [lookupFirst]

theorem cachePut_length_le (cfg : CacheConfig) (now : Nat) (m : Model)
    (cache : CacheState) (hmax : 1 ≤ cfg.max_size)
    (h : cache.length ≤ cfg.max_size) :
    (cachePut cfg now m cache).2.length ≤ cfg.max_size := by
  unfold cachePut
  cases hcE : cfg.enabled with
  | false => simpa [hcE] using h
  | true =>
    simp only [hcE]
    rw [if_neg (by decide : ¬(true = false))]
    by_cases hfull : cfg.max_size ≤ cache.length
    · have hne : cache ≠ [] := by
        intro hcon
        subst hcon
        simp at hfull
        omega
      obtain ⟨p, hp1, hp2, _⟩ := minByAccess_spec hne
      have hcont := containsKey_of_mem hp2
      have hlen : (removeFirst cache p.1).length + 1 = cache.length :=
        removeFirst_length hcont
      simp only [if_pos hfull, evictLru, hp1]
      rw [insertAssoc_length]
      by_cases hc2 : containsKey (removeFirst cache p.1) m.path
      · simp [hc2]; omega
      · simp [hc2]; omega
    · simp only [if_neg hfull]
      rw [insertAssoc_length]
      by_cases hc2 : containsKey cache m.path
      · simp [hc2]; omega
      · simp [hc2]; omega

theorem runPuts_length_le (cfg : CacheConfig) (hmax : 1 ≤ cfg.max_size) :
    ∀ (ops : List (Nat × Model)) (cache : CacheState),
      cache.length ≤ cfg.max_size →
      (runPuts cfg ops cache).length ≤ cfg.max_size := by
  intro ops
  induction ops with
  | nil => intro cache h; simpa [runPuts] using h
  | cons op rest ih =>
      intro cache h
      obtain ⟨now, m⟩ := op
      simp only [runPuts]
      exact ih _ (cachePut_length_le cfg now m cache hmax h)

/-- Claim C2 (amended: `max_size ≥ 1`): starting from the empty map, a cache
with `max_size ≥ 1` never holds more than `max_size` entries under any
sequence of `put` calls; and whenever `put` is called with the map size at or
above `max_size`, the entry found by the eviction scan has the lowest access
counter in the map (ties broken by iteration order), exactly that entry is
removed, and the new entry is then inserted with the fresh timestamp and an
access counter equal to 1. -/
theorem c2_cache_bound_and_eviction (cfg : CacheConfig)
    (hen : cfg.enabled = true) (hmax : 1 ≤ cfg.max_size) :
    (∀ ops : List (Nat × Model), (runPuts cfg ops []).length ≤ cfg.max_size) ∧
    (∀ (cache : CacheState) (now : Nat) (m : Model),
      cfg.max_size ≤ cache.length →
      ∃ p, minByAccess cache = some p ∧ p ∈ cache ∧
        (∀ q ∈ cache, p.2.access_count ≤ q.2.access_count) ∧
        (cachePut cfg now m cache).2 =
          insertAssoc (removeFirst cache p.1) m.path ⟨m, now, 1⟩ ∧
        lookupFirst (cachePut cfg now m cache).2 m.path = some ⟨m, now, 1⟩) := by
  constructor
  · intro ops
    exact runPuts_length_le cfg hmax ops [] (by simp)
  · intro cache now m hfull
    have hne : cache ≠ [] := by
      intro hcon
      subst hcon
      simp at hfull
      omega
    obtain ⟨p, hp1, hp2, hp3⟩ := minByAccess_spec hne
    have hstate : (cachePut cfg now m cache).2 =
        insertAssoc (removeFirst cache p.1) m.path ⟨m, now, 1⟩ := by
      simp [cachePut, hen, if_pos hfull, evictLru, hp1]
    refine ⟨p, hp1, hp2, hp3, hstate, ?_⟩
    rw [hstate]
    exact lookupFirst_insertAssoc_self _ _ _

/-- Counterexample for C2 as stated: with the representable configuration
`max_size = 0`, a single `put` on the empty enabled cache evicts nothing (the
map is empty) and inserts, leaving the map with more than `max_size`
entries. -/
theorem c2_counterexample :
    (⟨true, 0, 3600⟩ : CacheConfig).enabled = true ∧
    (⟨true, 0, 3600⟩ : CacheConfig).max_size <
      (cachePut ⟨true, 0, 3600⟩ 5 (sampleModel "a" "pa") []).2.length := by
  exact ⟨rfl, by decide⟩

/-- Witness for C2 (amended): three puts into a two-slot cache stay within
the bound. -/
theorem c2_witness :
    (runPuts ⟨true, 2, 3600⟩
        [(0, sampleModel "a" "pa"), (1, sampleModel "b" "pb"),
         (2, sampleModel "c" "pc")] []).length ≤
      (⟨true, 2, 3600⟩ : CacheConfig).max_size :=
  (c2_cache_bound_and_eviction ⟨true, 2, 3600⟩ rfl (by decide)).1 _

/-! ### Batch-processor lemmas -/

theorem seqOpt_eq_some :
    ∀ {l : List (Option (Except SynaptronError Bytes))}
      {r : List (Except SynaptronError Bytes)},
      seqOpt l = some r → l = r.map some := by
  intro l
  induction l with
  | nil =>
      intro r h
      simp only [seqOpt] at h
      cases h
      rfl
  | cons o rest ih =>
      intro r h
      cases o with
      | none => simp only [seqOpt] at h; cases h
      | some a =>
          simp only [seqOpt] at h
          cases hs : seqOpt rest with
          | none => simp only [hs] at h; simp at h
          | some rs =>
              simp only [hs, Option.map_some'] at h
              cases h
              simp [ih hs]

theorem seqOpt_none_of_mem :
    ∀ {l : List (Option (Except SynaptronError Bytes))},
      none ∈ l → seqOpt l = none := by
  intro l
  induction l with
  | nil => intro h; cases h
  | cons o rest ih =>
      intro h
      cases o with
      | none => rfl
      | some a =>
          have h2 : none ∈ rest := by
            rcases List.mem_cons.mp h with h1 | h1
            · cases h1
            · exact h1
          simp [seqOpt, ih h2]

theorem seqOpt_all_isSome
    {l : List (Option (Except SynaptronError Bytes))}
    (h : ∀ o ∈ l, o.isSome = true) :
    ∃ r, seqOpt l = some r ∧ l = r.map some := by
  induction l with
  | nil => exact ⟨[], rfl, rfl⟩
  | cons o rest ih =>
      obtain ⟨a, rfl⟩ := Option.isSome_iff_exists.mp (h o (List.mem_cons_self _ _))
      obtain ⟨r, hr1, hr2⟩ := ih (fun x hx => h x (List.mem_cons_of_mem _ hx))
      exact ⟨a :: r, by simp [seqOpt, hr1], by simp [hr2]⟩

theorem collectExcept_ok :
    ∀ {l : List (Except SynaptronError Bytes)} {v : List Bytes},
      collectExcept l = .ok v → l = v.map Except.ok := by
  intro l
  induction l with
  | nil =>
      intro v h
      simp only [collectExcept] at h
      cases h
      rfl
  | cons r rest ih =>
      intro v h
      cases r with
      | error e => simp only [collectExcept] at h; simp at h
      | ok x =>
          simp only [collectExcept] at h
          cases hc : collectExcept rest with
          | error e => simp only [hc] at h; simp at h
          | ok vs =>
              simp only [hc] at h
              cases h
              simp [ih hc]

theorem processBatch_ok {op : Bytes → Option (Except SynaptronError Bytes)}
    {c rs : List Bytes} (h : processBatch op c = .ok rs) :
    c.map op = rs.map (fun o => some (Except.ok o)) := by
  unfold processBatch at h
  cases hs : seqOpt (c.map op) with
  | none => simp only [hs] at h; simp at h
  | some results =>
      simp only [hs] at h
      have h2 := collectExcept_ok h
      have h3 := seqOpt_eq_some hs
      rw [h3, h2, List.map_map]
      rfl

theorem processBatch_congr {op op2 : Bytes → Option (Except SynaptronError Bytes)}
    {c : List Bytes} (h : ∀ x ∈ c, op2 x = op x) :
    processBatch op2 c = processBatch op c := by
  unfold processBatch
  rw [List.map_congr_left h]

theorem batchResults_error (op : Bytes → Option (Except SynaptronError Bytes))
    (x0 : Bytes) (c2 : List Bytes) (e : SynaptronError) :
    ∀ c1 : List Bytes,
      (∀ x ∈ c1 ++ x0 :: c2, (op x).isSome = true) →
      (∀ x ∈ c1, ∃ v, op x = some (.ok v)) →
      op x0 = some (.error e) →
      ∃ rs, seqOpt ((c1 ++ x0 :: c2).map op) = some rs ∧
        collectExcept rs = .error e := by
  intro c1
  induction c1 with
  | nil =>
      intro hcomplete _ hfail
      have hall : ∀ o ∈ c2.map op, o.isSome = true := by
        intro o ho
        rcases List.mem_map.mp ho with ⟨x, hx, rfl⟩
        exact hcomplete x (List.mem_cons_of_mem _ hx)
      obtain ⟨r2, hr1, _⟩ := seqOpt_all_isSome hall
      refine ⟨.error e :: r2, ?_, rfl⟩
      simp only [List.nil_append, List.map_cons, hfail, seqOpt, hr1,
        Option.map_some']
  | cons y c1t ih =>
      intro hcomplete hpre hfail
      obtain ⟨v, hv⟩ := hpre y (List.mem_cons_self _ _)
      obtain ⟨rs, h1, h2⟩ := ih
        (fun x hx => hcomplete x (List.mem_cons_of_mem _ hx))
        (fun x hx => hpre x (List.mem_cons_of_mem _ hx)) hfail
      refine ⟨.ok v :: rs, ?_, ?_⟩
      · simp only [List.cons_append, List.map_cons, hv, seqOpt, h1,
          Option.map_some']
      · simp [collectExcept, h2]

theorem processBatch_error_of_item
    (op : Bytes → Option (Except SynaptronError Bytes))
    (c1 : List Bytes) (x0 : Bytes) (c2 : List Bytes) (e : SynaptronError)
    (hcomplete : ∀ x ∈ c1 ++ x0 :: c2, (op x).isSome = true)
    (hpre : ∀ x ∈ c1, ∃ v, op x = some (.ok v))
    (hfail : op x0 = some (.error e)) :
    processBatch op (c1 ++ x0 :: c2) = .error e := by
  obtain ⟨rs, h1, h2⟩ := batchResults_error op x0 c2 e c1 hcomplete hpre hfail
  unfold processBatch
  simp only [h1]
  exact h2

theorem goChunks_ok {op : Bytes → Option (Except SynaptronError Bytes)} :
    ∀ {cs : List (List Bytes)} {outs : List Bytes},
      goChunks op cs = .ok outs →
      cs.flatten.map op = outs.map (fun o => some (Except.ok o)) := by
  intro cs
  induction cs with
  | nil =>
      intro outs h
      simp only [goChunks] at h
      cases h
      rfl
  | cons c cst ih =>
      intro outs h
      simp only [goChunks] at h
      cases hpb : processBatch op c with
      | error e => simp only [hpb] at h; simp at h
      | ok rs =>
          simp only [hpb] at h
          cases hgc : goChunks op cst with
          | error e => simp only [hgc] at h; simp at h
          | ok rest =>
              simp only [hgc] at h
              cases h
              simp only [List.flatten_cons, List.map_append]
              rw [processBatch_ok hpb, ih hgc]

theorem goChunks_first_error {op : Bytes → Option (Except SynaptronError Bytes)}
    {e : SynaptronError} (c : List Bytes) (cs2 : List (List Bytes)) :
    ∀ cs1 : List (List Bytes),
      (∀ ch ∈ cs1, ∃ rs, processBatch op ch = .ok rs) →
      processBatch op c = .error e →
      goChunks op (cs1 ++ c :: cs2) = .error e := by
  intro cs1
  induction cs1 with
  | nil =>
      intro _ he
      simp [goChunks, he]
  | cons ch rest ih =>
      intro hok he
      obtain ⟨rs, hr⟩ := hok ch (List.mem_cons_self _ _)
      have h2 := ih (fun x hx => hok x (List.mem_cons_of_mem _ hx)) he
      simp only [List.cons_append, goChunks, hr, List.append_eq, h2]

theorem rustChunksAux_flatten {α : Type} (n : Nat) :
    ∀ (fuel : Nat) (l : List α), l.length ≤ fuel →
      (rustChunksAux n fuel l).flatten = l := by
  intro fuel
  induction fuel with
  | zero =>
      intro l h
      have h2 : l = [] := List.eq_nil_of_length_eq_zero (Nat.le_zero.mp h)
      subst h2
      rfl
  | succ fuel ih =>
      intro l h
      cases l with
      | nil => rfl
      | cons x xs =>
          simp only [rustChunksAux, List.flatten_cons]
          rw [ih _ (by simp only [List.length_drop]; simp only [List.length_cons] at h; omega)]
          simp [List.take_append_drop]

theorem rustChunks_flatten {α : Type} (n : Nat) (l : List α) :
    (rustChunks n l).flatten = l :=
  rustChunksAux_flatten n l.length l le_rfl

theorem rustChunksAux_sizes {α : Type} {n : Nat} (hn : 0 < n) :
    ∀ (fuel : Nat) (l : List α) (ch : List α),
      ch ∈ rustChunksAux n fuel l → ch.length ≤ n := by
  intro fuel
  induction fuel with
  | zero => intro l ch h; simp [rustChunksAux] at h
  | succ fuel ih =>
      intro l ch h
      cases l with
      | nil => simp [rustChunksAux] at h
      | cons x xs =>
          simp only [rustChunksAux] at h
          rcases List.mem_cons.mp h with rfl | h2
          · simp only [List.length_cons]
            have h3 : (xs.take (n - 1)).length ≤ n - 1 :=
              le_trans (List.length_take_le _ _) le_rfl
            omega
          · exact ih _ _ h2

/-! ### Claim C4: batched processing preserves length and order -/

/-- Claim C4: for every input list of length at least 2 with batching enabled
and for every per-item operator, when `process` succeeds its output list has
the same length as the input list and the i-th output is the operator's
result on the i-th input (stated as the map equation, which pins every
position); moreover the inputs are partitioned into contiguous chunks of at
most `max_batch_size` whose concatenation in chunk order is the input
list. -/
theorem c4_batched_output (cfg : BatchConfig)
    (op : Bytes → Option (Except SynaptronError Bytes))
    (inputs : List Bytes) (outs : List Bytes)
    (hen : cfg.enabled = true) (hlen : 2 ≤ inputs.length)
    (hB : 0 < cfg.max_batch_size)
    (h : process cfg op inputs = some (.ok outs)) :
    outs.length = inputs.length ∧
    inputs.map op = outs.map (fun o => some (Except.ok o)) ∧
    (rustChunks cfg.max_batch_size inputs).flatten = inputs ∧
    (∀ ch ∈ rustChunks cfg.max_batch_size inputs,
      ch.length ≤ cfg.max_batch_size) := by
  have hcond : ¬(cfg.enabled = false ∨ inputs.length < 2) := by
    push_neg
    exact ⟨by simp [hen], by omega⟩
  unfold process at h
  rw [if_neg hcond, if_neg (by omega : ¬ cfg.max_batch_size = 0)] at h
  have h2 : goChunks op (rustChunks cfg.max_batch_size inputs) = .ok outs :=
    Option.some.inj h
  have h3 := goChunks_ok h2
  have h4 := rustChunks_flatten cfg.max_batch_size inputs
  rw [h4] at h3
  refine ⟨?_, h3, h4, fun ch hch => rustChunksAux_sizes hB _ _ _ hch⟩
  have h5 := congrArg List.length h3
  simpa using h5.symm

/-- Witness for C4: two chunks of two and one inputs, prepending operator. -/
theorem c4_witness :
    ([[0, 1], [0, 2], [0, 3]] : List Bytes).length =
      ([[1], [2], [3]] : List Bytes).length :=
  (c4_batched_output ⟨true, 2, 100⟩ (fun b => some (.ok (0 :: b)))
    [[1], [2], [3]] [[0, 1], [0, 2], [0, 3]] rfl (by decide) (by decide) rfl).1

/-! ### Claim C5: a never-completing item times out its whole chunk -/

/-- Claim C5: if some per-item operation in a chunk does not complete before
the configured timeout elapses (modelled as the operator returning `none` on
a member of the chunk), that chunk's processing fails with the batch-timeout
error — carrying no partial per-item results — and, when every earlier chunk
succeeded, `process` fails with that same batch-timeout error. -/
theorem c5_chunk_timeout (cfg : BatchConfig)
    (op : Bytes → Option (Except SynaptronError Bytes))
    (inputs : List Bytes) (cs1 : List (List Bytes)) (c : List Bytes)
    (cs2 : List (List Bytes)) (x : Bytes)
    (hen : cfg.enabled = true) (hlen : 2 ≤ inputs.length)
    (hB : 0 < cfg.max_batch_size)
    (hchunks : rustChunks cfg.max_batch_size inputs = cs1 ++ c :: cs2)
    (hok : ∀ ch ∈ cs1, ∃ rs, processBatch op ch = .ok rs)
    (hx : x ∈ c) (hnone : op x = none) :
    processBatch op c = .error (.Batch "Batch processing timed out") ∧
    process cfg op inputs = some (.error (.Batch "Batch processing timed out")) := by
  have h1 : processBatch op c = .error (.Batch "Batch processing timed out") := by
    unfold processBatch
    rw [seqOpt_none_of_mem (List.mem_map.mpr ⟨x, hx, hnone⟩)]
  have hcond : ¬(cfg.enabled = false ∨ inputs.length < 2) := by
    push_neg
    exact ⟨by simp [hen], by omega⟩
  refine ⟨h1, ?_⟩
  unfold process
  rw [if_neg hcond, if_neg (by omega : ¬ cfg.max_batch_size = 0), hchunks,
    goChunks_first_error c cs2 cs1 hok h1]

/-- The operator used by the C5 witness: the item `[3]` never completes. -/
def witnessOpC5 (b : Bytes) : Option (Except SynaptronError Bytes) :=
  if b = [3] then none else some (.ok b)

/-- Witness for C5: the second chunk contains a never-completing item. -/
theorem c5_witness :
    process ⟨true, 2, 100⟩ witnessOpC5 [[1], [2], [3]] =
      some (.error (.Batch "Batch processing timed out")) :=
  (c5_chunk_timeout ⟨true, 2, 100⟩ witnessOpC5 [[1], [2], [3]]
    [[[1], [2]]] [[3]] [] [3] rfl (by decide) (by decide) rfl
    (by
      intro ch hch
      simp only [List.mem_singleton] at hch
      subst hch
      exact ⟨[[1], [2]], rfl⟩)
    (by decide) rfl).2

/-! ### Claim C6: a failing item fails its chunk and process fail-fast -/

/-- Claim C6: if an individual per-item transform inside a chunk returns a
failure (all items of that chunk completing, with the failing item the first
failure, and every earlier chunk succeeding), then the chunk's result is
exactly that failure, `process` returns that failure, and no partial
aggregation is returned; that no subsequent chunk is attempted is expressed
by letting `process` run any operator `op2` that agrees with `op` on the
chunks up to and including the failing one but is arbitrary afterwards. -/
theorem c6_fail_fast (cfg : BatchConfig)
    (op op2 : Bytes → Option (Except SynaptronError Bytes))
    (inputs : List Bytes) (cs1 : List (List Bytes)) (c : List Bytes)
    (cs2 : List (List Bytes)) (c1 : List Bytes) (x0 : Bytes) (c2 : List Bytes)
    (e : SynaptronError)
    (hen : cfg.enabled = true) (hlen : 2 ≤ inputs.length)
    (hB : 0 < cfg.max_batch_size)
    (hchunks : rustChunks cfg.max_batch_size inputs = cs1 ++ c :: cs2)
    (hok : ∀ ch ∈ cs1, ∃ rs, processBatch op ch = .ok rs)
    (hc : c = c1 ++ x0 :: c2)
    (hcomplete : ∀ x ∈ c, (op x).isSome = true)
    (hpre : ∀ x ∈ c1, ∃ v, op x = some (.ok v))
    (hfail : op x0 = some (.error e))
    (hagree : ∀ x ∈ cs1.flatten ++ c, op2 x = op x) :
    processBatch op c = .error e ∧
    process cfg op2 inputs = some (.error e) := by
  have h1 : processBatch op c = .error e := by
    subst hc
    exact processBatch_error_of_item op c1 x0 c2 e hcomplete hpre hfail
  have h1b : processBatch op2 c = .error e := by
    rw [processBatch_congr (fun x hx => hagree x (List.mem_append_right _ hx))]
    exact h1
  have hok2 : ∀ ch ∈ cs1, ∃ rs, processBatch op2 ch = .ok rs := by
    intro ch hch
    obtain ⟨rs, hrs⟩ := hok ch hch
    refine ⟨rs, ?_⟩
    rw [processBatch_congr (fun x hx =>
      hagree x (List.mem_append_left _ (List.mem_flatten.mpr ⟨ch, hch, hx⟩)))]
    exact hrs
  have hcond : ¬(cfg.enabled = false ∨ inputs.length < 2) := by
    push_neg
    exact ⟨by simp [hen], by omega⟩
  refine ⟨h1, ?_⟩
  unfold process
  rw [if_neg hcond, if_neg (by omega : ¬ cfg.max_batch_size = 0), hchunks,
    goChunks_first_error c cs2 cs1 hok2 h1b]

/-- The operator used by the C6 witness: the item `[4]` fails. -/
def witnessOpC6 (b : Bytes) : Option (Except SynaptronError Bytes) :=
  if b = [4] then some (.error (.Inference "boom")) else some (.ok b)

/-- Witness for C6: the second chunk contains a failing item. -/
theorem c6_witness :
    process ⟨true, 2, 100⟩ witnessOpC6 [[1], [2], [3], [4]] =
      some (.error (.Inference "boom")) :=
  (c6_fail_fast ⟨true, 2, 100⟩ witnessOpC6 witnessOpC6 [[1], [2], [3], [4]]
    [[[1], [2]]] [[3], [4]] [] [[3]] [4] [] (.Inference "boom")
    rfl (by decide) (by decide) rfl
    (by
      intro ch hch
      simp only [List.mem_singleton] at hch
      subst hch
      exact ⟨[[1], [2]], rfl⟩)
    rfl (by decide)
    (by
      intro x hx
      simp only [List.mem_singleton] at hx
      subst hx
      exact ⟨[3], rfl⟩)
    rfl (fun x _ => rfl)).2

/-! ### Claim C7: the sequential path is sequential application -/

theorem sequentialApply_cons
    (op : Bytes → Option (Except SynaptronError Bytes)) (x : Bytes)
    (xs : List Bytes) :
    sequentialApply op (x :: xs) =
      Option.bind (op x) (fun r =>
        match r with
        | .error e => some (.error e)
        | .ok v =>
            Option.bind (sequentialApply op xs) (fun r2 =>
              match r2 with
              | .error e => some (.error e)
              | .ok vs => some (.ok (v :: vs)))) := by
  show (List.mapM (fun b => ExceptT.mk (op b)) (x :: xs) :
      ExceptT SynaptronError Option (List Bytes)).run = _
  rw [List.mapM_cons]
  show Option.bind (op x) _ = Option.bind (op x) _
  congr 1
  funext r
  cases r with
  | error e => rfl
  | ok v =>
      show Option.bind (sequentialApply op xs) _ =
        Option.bind (sequentialApply op xs) _
      congr 1
      funext r2
      cases r2 with
      | error e => rfl
      | ok vs => rfl

theorem processSeq_eq_sequentialApply
    (op : Bytes → Option (Except SynaptronError Bytes)) :
    ∀ inputs : List Bytes, processSeq op inputs = sequentialApply op inputs := by
  intro inputs
  induction inputs with
  | nil => rfl
  | cons x xs ih =>
      rw [sequentialApply_cons]
      simp only [processSeq, ih]
      cases hx : op x with
      | none => rfl
      | some r =>
          cases r with
          | error e => rfl
          | ok v =>
              cases hs : sequentialApply op xs with
              | none => rfl
              | some r2 =>
                  cases r2 with
                  | error e => rfl
                  | ok vs => rfl

/-- Claim C7: for every input list of length less than 2, and for every input
list when batching is disabled, the output of `process` equals the strictly
sequential application of the operator to each input in input order (the
monadic map `sequentialApply`). -/
theorem c7_sequential_path (cfg : BatchConfig)
    (op : Bytes → Option (Except SynaptronError Bytes))
    (inputs : List Bytes)
    (h : cfg.enabled = false ∨ inputs.length < 2) :
    process cfg op inputs = sequentialApply op inputs := by
  unfold process
  rw [if_pos h]
  exact processSeq_eq_sequentialApply op inputs

/-- Witness for C7 at a disabled-batching configuration. -/
theorem c7_witness :
    process ⟨false, 2, 100⟩ (fun b => some (.ok (0 :: b))) [[1], [2], [3]] =
      sequentialApply (fun b => some (.ok (0 :: b))) [[1], [2], [3]] :=
  c7_sequential_path ⟨false, 2, 100⟩ (fun b => some (.ok (0 :: b)))
    [[1], [2], [3]] (Or.inl rfl)

end Synaptron
